import Mathlib

/-!
Verification of the English-text scoring and XOR-cipher-breaking engine of the
cryptopals toolkit (`crypto_utils.py` and `set1.py`), via a shallow embedding:
byte buffers are `List Nat` (each element a value 0–255), floating point scores
are modelled as exact rationals `ℚ`, Python `None` results are `Option.none`,
and a raised exception is `Option.none` of the enclosing call.
-/

namespace CryptoPals

/-- Per-byte ASCII lowercasing, as Python `bytes.lower` does: bytes 65–90 are
shifted up by 32, all other bytes are unchanged. -/
def lower (b : Nat) : Nat := if 65 ≤ b ∧ b ≤ 90 then b + 32 else b

/-- `WHITESPACE` from the source: linefeed and space. -/
def WHITESPACE : List Nat := [10, 32]

/-- `VALID_ASCII_BYTES` from the source: whitespace plus `range(33, 128)`. -/
def VALID_ASCII_BYTES : List Nat := WHITESPACE ++ List.range' 33 95

/-- `valid_english_byte` from the source: membership in `VALID_ASCII_BYTES`. -/
def valid_english_byte (b : Nat) : Bool := decide (b ∈ VALID_ASCII_BYTES)

/-- The `FREQUENCIES` table from the source: expected relative frequency of each
lowercase ASCII letter (keys 97–122) in English text; 0 outside the table. -/
def FREQUENCIES : Nat → ℚ
  | 97 => 0.08167
  | 98 => 0.01492
  | 99 => 0.02782
  | 100 => 0.04253
  | 101 => 0.12702
  | 102 => 0.02228
  | 103 => 0.02015
  | 104 => 0.06094
  | 105 => 0.06966
  | 106 => 0.00153
  | 107 => 0.00772
  | 108 => 0.04025
  | 109 => 0.02406
  | 110 => 0.06749
  | 111 => 0.07507
  | 112 => 0.01929
  | 113 => 0.00095
  | 114 => 0.05987
  | 115 => 0.06327
  | 116 => 0.09056
  | 117 => 0.02758
  | 118 => 0.00978
  | 119 => 0.02360
  | 120 => 0.00150
  | 121 => 0.01974
  | 122 => 0.00074
  | _ => 0

/-- The lowercase letters extracted from a block: `block.lower()` filtered to
bytes in `range(97, 123)`, as both scorers do. -/
def letters_of (block : List Nat) : List Nat :=
  (block.map lower).filter fun b => decide (97 ≤ b) && decide (b ≤ 122)

/-- `chi2_score` from the source: `None` when some byte is invalid, when no
space is present, or when no letters are found; otherwise the chi-squared
statistic over the letters that actually occur. -/
def chi2_score (block : List Nat) : Option ℚ :=
  if ¬ (block.all fun b => valid_english_byte b) then none
  else if ¬ (block.any fun b => b == 32) then none
  else
    let letters := letters_of block
    if letters.length = 0 then none
    else some ((((List.range' 97 26).filter fun b => letters.count b != 0).map fun b =>
      ((letters.count b : ℚ) - (letters.length : ℚ) * FREQUENCIES b) ^ 2
        / ((letters.length : ℚ) * FREQUENCIES b)).sum)

/-- The bit-counting loop inside `hamming`: `while xor > 0: xor &= xor - 1;
count += 1` (Kernighan's trick); the result is the number of loop iterations. -/
def bitCountLoop (x : Nat) : Nat :=
  if h : x = 0 then 0 else bitCountLoop (x &&& (x - 1)) + 1
decreasing_by
  exact Nat.lt_of_le_of_lt Nat.and_le_right (Nat.sub_lt (Nat.pos_of_ne_zero h) Nat.one_pos)

/-- `hamming` from the source: `none` models the `RuntimeError` raised on a
length mismatch; otherwise the bit-count loop is run on the XOR of each
corresponding pair of bytes and the counts are summed. -/
def hamming (bs1 bs2 : List Nat) : Option Nat :=
  if bs1.length ≠ bs2.length then none
  else some (((bs1.zip bs2).map fun p => bitCountLoop (p.1 ^^^ p.2)).sum)

/-- `fixed_xor` from the source: `buf1[i] ^ buf2[i]` for `i` in
`range(len(buf1))`; `none` models the `IndexError` raised when `buf2` is too
short to supply every index. -/
def fixed_xor (buf1 buf2 : List Nat) : Option (List Nat) :=
  if buf2.length < buf1.length then none
  else some ((List.range buf1.length).map fun i => buf1.getD i 0 ^^^ buf2.getD i 0)

/-- `repeating_xor` from the source: byte `i` of the result is `block[i]` XORed
with the cycled key byte `key[i % len(key)]` (the key must be non-empty, as in
the source, where `cycle` of an empty key would make the XOR fail). -/
def repeating_xor (block key : List Nat) : List Nat :=
  (List.range block.length).map fun i => block.getD i 0 ^^^ key.getD (i % key.length) 0

/-- Number of set bits of a natural number, written independently of the
source's loop: the sum of the binary digits. -/
def popCount (n : Nat) : Nat :=
  if n = 0 then 0 else popCount (n / 2) + n % 2
decreasing_by
  exact Nat.div_lt_self (Nat.pos_of_ne_zero (by assumption)) Nat.one_lt_two

/- ### Correctness of the bit-counting loop -/

theorem popCount_zero : popCount 0 = 0 := by rw [popCount]; simp

theorem popCount_two_mul (m : Nat) : popCount (2 * m) = popCount m := by
  rcases Nat.eq_zero_or_pos m with h | h
  · simp [h]
  · rw [popCount]
    have h2 : ¬ (2 * m = 0) := by omega
    simp only [h2, if_false]
    have : 2 * m / 2 = m := by omega
    have h3 : 2 * m % 2 = 0 := by omega
    rw [this, h3]
    omega

theorem popCount_two_mul_add_one (m : Nat) : popCount (2 * m + 1) = popCount m + 1 := by
  rw [popCount]
  have h2 : ¬ (2 * m + 1 = 0) := by omega
  simp only [h2, if_false]
  have : (2 * m + 1) / 2 = m := by omega
  have h3 : (2 * m + 1) % 2 = 1 := by omega
  rw [this, h3]

theorem land_two_mul_add_one (m : Nat) : (2 * m + 1) &&& (2 * m) = 2 * m := by
  apply Nat.eq_of_testBit_eq
  intro i
  cases i with
  | zero =>
      simp only [Nat.testBit_and, Nat.testBit_zero]
      have h1 : (2 * m + 1) % 2 = 1 := by omega
      have h2 : (2 * m) % 2 = 0 := by omega
      simp [h1, h2]
  | succ j =>
      rw [Nat.testBit_and]
      simp only [Nat.testBit_succ]
      have h1 : (2 * m + 1) / 2 = m := by omega
      have h2 : (2 * m) / 2 = m := by omega
      rw [h1, h2, Bool.and_self]

theorem land_two_mul_sub_one (m : Nat) (hm : 0 < m) :
    (2 * m) &&& (2 * m - 1) = 2 * (m &&& (m - 1)) := by
  apply Nat.eq_of_testBit_eq
  intro i
  cases i with
  | zero =>
      simp only [Nat.testBit_and, Nat.testBit_zero]
      have h1 : (2 * m) % 2 = 0 := by omega
      have h2 : (2 * (m &&& (m - 1))) % 2 = 0 := by omega
      simp [h1, h2]
  | succ j =>
      rw [Nat.testBit_and]
      simp only [Nat.testBit_succ]
      have h1 : (2 * m) / 2 = m := by omega
      have h2 : (2 * m - 1) / 2 = m - 1 := by omega
      have h3 : (2 * (m &&& (m - 1))) / 2 = m &&& (m - 1) := by omega
      rw [h1, h2, h3, Nat.testBit_and]

theorem bitCountLoop_two_mul (m : Nat) : bitCountLoop (2 * m) = bitCountLoop m := by
  induction m using Nat.strong_induction_on with
  | _ m ih =>
    rcases Nat.eq_zero_or_pos m with h | h
    · simp [h]
    · rw [bitCountLoop]
      have h2 : ¬ (2 * m = 0) := by omega
      simp only [h2, dif_neg, not_false_iff]
      rw [land_two_mul_sub_one m h]
      have hlt : m &&& (m - 1) < m :=
        Nat.lt_of_le_of_lt Nat.and_le_right (Nat.sub_lt h Nat.one_pos)
      rw [ih _ hlt]
      conv_rhs => rw [bitCountLoop]
      have h3 : ¬ (m = 0) := by omega
      simp [h3]

theorem bitCountLoop_eq_popCount (n : Nat) : bitCountLoop n = popCount n := by
  induction n using Nat.strong_induction_on with
  | _ n ih =>
    rcases Nat.eq_zero_or_pos n with h | h
    · rw [h, bitCountLoop, popCount]; simp
    · rcases Nat.mod_two_eq_zero_or_one n with hp | hp
      · obtain ⟨m, rfl⟩ : ∃ m, n = 2 * m := ⟨n / 2, by omega⟩
        have hm0 : 0 < m := by omega
        rw [bitCountLoop_two_mul, popCount_two_mul]
        exact ih m (by omega)
      · obtain ⟨m, rfl⟩ : ∃ m, n = 2 * m + 1 := ⟨n / 2, by omega⟩
        rw [bitCountLoop]
        have h2 : ¬ (2 * m + 1 = 0) := by omega
        simp only [h2, dif_neg, not_false_iff]
        have h3 : 2 * m + 1 - 1 = 2 * m := by omega
        rw [h3, land_two_mul_add_one, bitCountLoop_two_mul, popCount_two_mul_add_one]
        rw [ih m (by omega)]

/- ### Basic facts about repeating_xor and fixed_xor -/

theorem length_repeating_xor (block key : List Nat) :
    (repeating_xor block key).length = block.length := by
  simp [repeating_xor]

theorem getD_repeating_xor (block key : List Nat) (i : Nat) (hi : i < block.length) :
    (repeating_xor block key).getD i 0 = block.getD i 0 ^^^ key.getD (i % key.length) 0 := by
  rw [repeating_xor, List.getD_eq_getElem _ _ (by simpa using hi)]
  simp

/-- C9: for a non-empty key, `repeating_xor(block, key)` has the same length as
`block` and its byte at index `i` is `block[i] XOR key[i mod len(key)]`. -/
theorem repeating_xor_spec (block key : List Nat) (hk : key ≠ []) :
    (repeating_xor block key).length = block.length ∧
    ∀ i, i < block.length →
      (repeating_xor block key).getD i 0 = block.getD i 0 ^^^ key.getD (i % key.length) 0 := by
  refine ⟨length_repeating_xor block key, fun i hi => getD_repeating_xor block key i hi⟩

/-- Witness for C9 at `block = [5, 6, 7]`, `key = [3, 1]`, index 2. -/
theorem repeating_xor_spec_witness :
    (repeating_xor [5, 6, 7] [3, 1]).getD 2 0
      = ([5, 6, 7] : List Nat).getD 2 0 ^^^ ([3, 1] : List Nat).getD (2 % ([3, 1] : List Nat).length) 0 :=
  (repeating_xor_spec [5, 6, 7] [3, 1] (by decide)).2 2 (by decide)

/-- C5: repeating-key XOR is self-inverse for every non-empty key. -/
theorem repeating_xor_involutive (block key : List Nat) (hk : key ≠ []) :
    repeating_xor (repeating_xor block key) key = block := by
  refine List.ext_getElem (by simp [length_repeating_xor]) ?_
  intro i h1 h2
  have hi : i < block.length := h2
  rw [← List.getD_eq_getElem _ 0 h1, ← List.getD_eq_getElem _ 0 h2]
  rw [getD_repeating_xor _ _ _ (by simpa [length_repeating_xor] using hi),
      getD_repeating_xor _ _ _ hi]
  rw [Nat.xor_assoc, Nat.xor_self, Nat.xor_zero]

/-- Witness for C5 at `block = [1, 2, 3]`, `key = [7]`. -/
theorem repeating_xor_involutive_witness :
    repeating_xor (repeating_xor [1, 2, 3] [7]) [7] = [1, 2, 3] :=
  repeating_xor_involutive [1, 2, 3] [7] (by decide)

/-- C10: when `buf2` is at least as long as `buf1`, `fixed_xor` succeeds and
returns the pointwise XOR truncated to `len(buf1)`; when `buf2` is shorter the
out-of-range index is reached and the call errors. -/
theorem fixed_xor_spec (buf1 buf2 : List Nat) :
    (buf1.length ≤ buf2.length → ∃ r, fixed_xor buf1 buf2 = some r ∧
        r.length = buf1.length ∧
        ∀ i, i < buf1.length → r.getD i 0 = buf1.getD i 0 ^^^ buf2.getD i 0) ∧
    (buf2.length < buf1.length → fixed_xor buf1 buf2 = none) := by
  constructor
  · intro h
    refine ⟨(List.range buf1.length).map fun i => buf1.getD i 0 ^^^ buf2.getD i 0, ?_, by simp, ?_⟩
    · rw [fixed_xor, if_neg (by omega)]
    · intro i hi
      rw [List.getD_eq_getElem _ _ (by simpa using hi)]
      simp
  · intro h
    rw [fixed_xor, if_pos h]

/-- Witness for C10: a shorter second buffer errors, a longer one succeeds. -/
theorem fixed_xor_spec_witness :
    fixed_xor [1, 2] [3] = none ∧ (fixed_xor [1] [2, 3]).isSome = true := by
  constructor
  · exact (fixed_xor_spec [1, 2] [3]).2 (by decide)
  · obtain ⟨r, hr, -⟩ := (fixed_xor_spec [1] [2, 3]).1 (by decide)
    rw [hr]; rfl

/- ### Hamming distance -/

/-- C6: `hamming` errors exactly on a length mismatch, and on equal lengths
returns the total number of set bits in the pointwise XOR. -/
theorem hamming_spec (bs1 bs2 : List Nat) :
    (hamming bs1 bs2 = none ↔ bs1.length ≠ bs2.length) ∧
    (bs1.length = bs2.length →
      hamming bs1 bs2 = some (((bs1.zip bs2).map fun p => popCount (p.1 ^^^ p.2)).sum)) := by
  constructor
  · rw [hamming]
    by_cases h : bs1.length = bs2.length
    · simp [h]
    · simp [h]
  · intro h
    rw [hamming, if_neg (by omega)]
    exact congrArg some
      (congrArg List.sum (List.map_congr_left fun p _ => bitCountLoop_eq_popCount _))

theorem popCount_one : popCount 1 = 1 := by
  simpa [popCount_zero] using popCount_two_mul_add_one 0

theorem popCount_three : popCount 3 = 2 := by
  have h := popCount_two_mul_add_one 1
  norm_num [popCount_one] at h
  exact h

/-- Witness for C6 at `[1, 2]`, `[2, 3]`: the distance is 3. -/
theorem hamming_spec_witness : hamming [1, 2] [2, 3] = some 3 := by
  have h := (hamming_spec [1, 2] [2, 3]).2 rfl
  rw [h]
  norm_num [show (1 : Nat) ^^^ 2 = 3 by decide, show (2 : Nat) ^^^ 3 = 1 by decide,
    popCount_one, popCount_three]

theorem zip_self_bitCount_sum (a : List Nat) :
    ((a.zip a).map fun p => bitCountLoop (p.1 ^^^ p.2)).sum = 0 := by
  induction a with
  | nil => rfl
  | cons x t ih =>
      simp only [List.zip_cons_cons, List.map_cons, List.sum_cons, ih, Nat.add_zero]
      rw [Nat.xor_self, bitCountLoop]
      simp

/-- C7: on equal-length buffers the Hamming distance is symmetric, and the
distance from a buffer to itself is 0. -/
theorem hamming_symm_self (a b : List Nat) (h : a.length = b.length) :
    hamming a b = hamming b a ∧ hamming a a = some 0 := by
  constructor
  · rw [hamming, hamming, if_neg (by omega), if_neg (by omega)]
    congr 1
    rw [← List.zip_swap a b, List.map_map]
    refine congrArg List.sum (List.map_congr_left ?_)
    intro p _
    simp only [Function.comp_apply, Prod.fst_swap, Prod.snd_swap]
    rw [Nat.xor_comm]
  · rw [hamming, if_neg (by omega), zip_self_bitCount_sum]

/-- Witness for C7 at `a = [1, 2]`, `b = [3, 4]`. -/
theorem hamming_symm_self_witness :
    hamming [1, 2] [3, 4] = hamming [3, 4] [1, 2] ∧ hamming [1, 2] [1, 2] = some 0 :=
  hamming_symm_self [1, 2] [3, 4] rfl

/- ### The chi-squared scorer -/

theorem mem_valid_iff (b : Nat) :
    b ∈ VALID_ASCII_BYTES ↔ (b = 10 ∨ b = 32 ∨ (33 ≤ b ∧ b ≤ 127)) := by
  simp only [VALID_ASCII_BYTES, WHITESPACE, List.mem_append, List.mem_cons,
    List.not_mem_nil, or_false, List.mem_range']
  constructor
  · rintro ((rfl | rfl) | ⟨i, hi, rfl⟩)
    · exact Or.inl rfl
    · exact Or.inr (Or.inl rfl)
    · right; right; omega
  · rintro (rfl | rfl | ⟨h1, h2⟩)
    · exact Or.inl (Or.inl rfl)
    · exact Or.inl (Or.inr rfl)
    · exact Or.inr ⟨b - 33, by omega, by omega⟩

/-- A byte survives the letter filter exactly when it is a lowercase letter or
an uppercase letter (which case-folding sends into 97–122). -/
theorem lower_letter_iff (b : Nat) :
    (97 ≤ lower b ∧ lower b ≤ 122) ↔ ((97 ≤ b ∧ b ≤ 122) ∨ (65 ≤ b ∧ b ≤ 90)) := by
  rw [lower]
  by_cases h : 65 ≤ b ∧ b ≤ 90
  · rw [if_pos h]; omega
  · rw [if_neg h]; omega

theorem letters_of_eq_nil_iff (block : List Nat) :
    letters_of block = [] ↔ ∀ b ∈ block, ¬ ((97 ≤ b ∧ b ≤ 122) ∨ (65 ≤ b ∧ b ≤ 90)) := by
  rw [letters_of, List.filter_eq_nil_iff]
  constructor
  · intro h b hb
    have := h (lower b) (List.mem_map_of_mem lower hb)
    simp only [Bool.and_eq_true, decide_eq_true_eq, not_and] at this
    rw [← lower_letter_iff]
    intro hc
    exact this hc.1 hc.2
  · intro h a ha
    obtain ⟨b, hb, rfl⟩ := List.mem_map.mp ha
    have := h b hb
    rw [← lower_letter_iff] at this
    simp only [Bool.and_eq_true, decide_eq_true_eq, not_and]
    intro h1 h2
    exact this ⟨h1, h2⟩

/-- C4: `chi2_score` returns `None` exactly when some byte is outside the
accepted set {10, 32} ∪ {33–127}, or no byte is a space, or the block has no
letters after case-folding; otherwise it returns a score. -/
theorem chi2_score_none_iff (block : List Nat) :
    chi2_score block = none ↔
      (∃ b ∈ block, ¬ (b = 10 ∨ b = 32 ∨ (33 ≤ b ∧ b ≤ 127))) ∨
      32 ∉ block ∨
      (∀ b ∈ block, ¬ ((97 ≤ b ∧ b ≤ 122) ∨ (65 ≤ b ∧ b ≤ 90))) := by
  rw [chi2_score]
  by_cases hA : (block.all fun b => valid_english_byte b) = true
  · rw [if_neg (by simp [hA])]
    by_cases hB : (block.any fun b => b == 32) = true
    · rw [if_neg (by simp [hB])]
      simp only []
      by_cases hC : (letters_of block).length = 0
      · rw [if_pos hC]
        simp only [true_iff]
        right; right
        exact (letters_of_eq_nil_iff block).mp (List.length_eq_zero.mp hC)
      · rw [if_neg hC]
        simp only [reduceCtorEq, false_iff]
        push_neg
        refine ⟨?_, ?_, ?_⟩
        · intro b hb
          have := (List.all_eq_true.mp hA) b hb
          simpa [valid_english_byte, mem_valid_iff] using this
        · obtain ⟨b, hb, he⟩ := List.any_eq_true.mp hB
          have : b = 32 := by simpa using he
          exact this ▸ hb
        · obtain ⟨a, ha⟩ := List.exists_mem_of_length_pos (Nat.pos_of_ne_zero hC)
          have ha' := ha
          rw [letters_of, List.mem_filter] at ha'
          obtain ⟨hmem, hp⟩ := ha'
          obtain ⟨b, hb, rfl⟩ := List.mem_map.mp hmem
          refine ⟨b, hb, ?_⟩
          rw [← lower_letter_iff]
          simpa using hp
    · rw [if_pos (by simpa using hB)]
      simp only [true_iff]
      right; left
      intro hmem
      exact hB (List.any_eq_true.mpr ⟨32, hmem, by simp⟩)
  · rw [if_pos (by simpa using hA)]
    simp only [true_iff]
    left
    obtain ⟨b, hb, hv⟩ := by
      simpa [List.all_eq_true] using hA
    exact ⟨b, hb, by simpa [valid_english_byte, mem_valid_iff] using hv⟩

/- ### The chi-squared score is strictly positive whenever it exists -/

theorem range'_97_26 : List.range' 97 26 =
    [97, 98, 99, 100, 101, 102, 103, 104, 105, 106, 107, 108, 109, 110,
     111, 112, 113, 114, 115, 116, 117, 118, 119, 120, 121, 122] := by decide

theorem freq_pos : ∀ b ∈ List.range' 97 26, 0 < FREQUENCIES b := by
  rw [range'_97_26]
  intro b hb
  simp only [List.mem_cons, List.not_mem_nil, or_false] at hb
  rcases hb with rfl|rfl|rfl|rfl|rfl|rfl|rfl|rfl|rfl|rfl|rfl|rfl|rfl|rfl|rfl|rfl|rfl|rfl|rfl|rfl|rfl|rfl|rfl|rfl|rfl|rfl <;>
    norm_num [FREQUENCIES]

/-- The 26 tabulated letter frequencies sum to 99999/100000, strictly below 1. -/
theorem freq_total : ((List.range' 97 26).map FREQUENCIES).sum = 99999 / 100000 := by
  rw [range'_97_26]
  simp only [List.map_cons, List.map_nil, List.sum_cons, List.sum_nil, FREQUENCIES]
  norm_num

theorem sum_map_add_nat (l : List Nat) (f g : Nat → Nat) :
    (l.map fun b => f b + g b).sum = (l.map f).sum + (l.map g).sum := by
  induction l with
  | nil => rfl
  | cons x t ih => simp only [List.map_cons, List.sum_cons, ih]; omega

theorem sum_map_ite_eq_count (R : List Nat) (x : Nat) :
    (R.map fun b => if x == b then 1 else 0).sum = R.count x := by
  induction R with
  | nil => rfl
  | cons r R' ih =>
      rw [List.map_cons, List.sum_cons, ih, List.count_cons]
      by_cases h : r = x
      · subst h
        rw [Nat.add_comm]
      · rw [show (x == r) = false from beq_eq_false_iff_ne.mpr (Ne.symm h),
            show (r == x) = false from beq_eq_false_iff_ne.mpr h]
        simp

theorem sum_counts_eq_length (L R : List Nat) (hN : R.Nodup) (hmem : ∀ x ∈ L, x ∈ R) :
    (R.map fun b => L.count b).sum = L.length := by
  induction L with
  | nil => simp
  | cons x L' ih =>
      have hx : x ∈ R := hmem x (by simp)
      have h1 : (R.map fun b => (x :: L').count b).sum
          = (R.map fun b => L'.count b).sum + (R.map fun b => if x == b then 1 else 0).sum := by
        rw [← sum_map_add_nat]
        refine congrArg List.sum (List.map_congr_left fun b _ => ?_)
        rw [List.count_cons]
      rw [h1, ih (fun y hy => hmem y (List.mem_cons_of_mem x hy)),
        sum_map_ite_eq_count, List.count_eq_one_of_mem hN hx]
      simp

theorem sum_map_filter_ne_zero (R : List Nat) (f : Nat → Nat) :
    ((R.filter fun b => f b != 0).map f).sum = (R.map f).sum := by
  induction R with
  | nil => rfl
  | cons r R' ih =>
      by_cases h : f r = 0
      · simp [List.filter_cons, h, ih]
      · simp [List.filter_cons, h, ih]

theorem letters_of_mem_range (block : List Nat) :
    ∀ x ∈ letters_of block, x ∈ List.range' 97 26 := by
  intro x hx
  rw [letters_of, List.mem_filter] at hx
  obtain ⟨-, hp⟩ := hx
  simp only [Bool.and_eq_true, decide_eq_true_eq] at hp
  exact List.mem_range'.mpr ⟨x - 97, by omega, by omega⟩

/-- Whenever `chi2_score` produces a score, the score is strictly positive:
the tabulated frequencies sum to strictly less than 1, so the observed counts
can never all match their expected values exactly. In particular a chi-squared
score of 0.0 is impossible, so Python's truthiness test `if score:` inside
`break_single_byte_xor` is equivalent to an `is not None` test. -/
theorem chi2_score_pos (block : List Nat) (s : ℚ) (h : chi2_score block = some s) :
    0 < s := by
  rw [chi2_score] at h
  by_cases hA : (block.all fun b => valid_english_byte b) = true
  swap
  · rw [if_pos (by simpa using hA)] at h; exact absurd h (by simp)
  rw [if_neg (by simp [hA])] at h
  by_cases hB : (block.any fun b => b == 32) = true
  swap
  · rw [if_pos (by simpa using hB)] at h; exact absurd h (by simp)
  rw [if_neg (by simp [hB])] at h
  simp only [] at h
  by_cases hC : (letters_of block).length = 0
  · rw [if_pos hC] at h; exact absurd h (by simp)
  rw [if_neg hC] at h
  have hS := (Option.some_inj.mp h).symm
  set L := letters_of block with hLdef
  set keys := (List.range' 97 26).filter fun b => L.count b != 0 with hkeys
  set T : ℚ := (L.length : ℚ) with hT
  have hkeysub : ∀ b ∈ keys, b ∈ List.range' 97 26 := fun b hb => List.mem_of_mem_filter hb
  have hepos : ∀ b ∈ keys, 0 < T * FREQUENCIES b := by
    intro b hb
    have h1 : (0 : ℚ) < T := by
      rw [hT]
      exact_mod_cast Nat.pos_of_ne_zero hC
    exact mul_pos h1 (freq_pos b (hkeysub b hb))
  have hnonneg : ∀ x ∈ keys.map fun b =>
      ((L.count b : ℚ) - T * FREQUENCIES b) ^ 2 / (T * FREQUENCIES b), 0 ≤ x := by
    intro x hx
    obtain ⟨b, hb, rfl⟩ := List.mem_map.mp hx
    exact div_nonneg (sq_nonneg _) (le_of_lt (hepos b hb))
  by_contra hpos
  push_neg at hpos
  have hs0 : s = 0 := le_antisymm hpos (hS ▸ List.sum_nonneg hnonneg)
  have hall : ∀ x ∈ keys.map fun b =>
      ((L.count b : ℚ) - T * FREQUENCIES b) ^ 2 / (T * FREQUENCIES b), x = 0 :=
    fun x hx => List.all_zero_of_le_zero_le_of_sum_eq_zero hnonneg (by rw [← hS, hs0]) hx
  have hcnt : ∀ b ∈ keys, (L.count b : ℚ) = T * FREQUENCIES b := by
    intro b hb
    have hzero := hall _ (List.mem_map_of_mem _ hb)
    have hne : T * FREQUENCIES b ≠ 0 := ne_of_gt (hepos b hb)
    rcases div_eq_zero_iff.mp hzero with h2 | h2
    · have := (pow_eq_zero_iff two_ne_zero).mp h2
      linarith [sub_eq_zero.mp this]
    · exact absurd h2 hne
  have hnat : (keys.map fun b => L.count b).sum = L.length := by
    rw [hkeys, sum_map_filter_ne_zero]
    exact sum_counts_eq_length L (List.range' 97 26) (List.nodup_range' _ _)
      (letters_of_mem_range block)
  have hTF : T = T * (keys.map FREQUENCIES).sum := by
    calc T = (((keys.map fun b => L.count b).sum : ℕ) : ℚ) := by rw [hnat]
    _ = (keys.map fun b => (L.count b : ℚ)).sum := by
        rw [Nat.cast_list_sum, List.map_map]; rfl
    _ = (keys.map fun b => T * FREQUENCIES b).sum :=
        congrArg List.sum (List.map_congr_left hcnt)
    _ = T * (keys.map FREQUENCIES).sum := List.sum_map_mul_left keys FREQUENCIES T
  have hT0 : T ≠ 0 := by
    rw [hT]
    exact_mod_cast hC
  have hF1 : (keys.map FREQUENCIES).sum = 1 :=
    (mul_left_cancel₀ hT0 (by rw [mul_one, ← hTF])).symm
  have hFle : (keys.map FREQUENCIES).sum ≤ ((List.range' 97 26).map FREQUENCIES).sum := by
    refine List.Sublist.sum_le_sum ((List.filter_sublist _).map _) ?_
    intro a ha
    obtain ⟨b, hb, rfl⟩ := List.mem_map.mp ha
    exact le_of_lt (freq_pos b hb)
  rw [freq_total] at hFle
  rw [hF1] at hFle
  norm_num at hFle

/- ### The quad-gram scorer -/

/-- The loop body state of the source's sliding-window generator (width 4):
the initial window is yielded, then for each further element the window is
shifted by one and yielded again. -/
def sliding_go (w : Nat × Nat × Nat × Nat) : List Nat → List (Nat × Nat × Nat × Nat)
  | [] => [w]
  | x :: xs => w :: sliding_go (w.2.1, w.2.2.1, w.2.2.2, x) xs

/-- The source's sliding-window helper at width 4: fewer than 4 elements yield
no windows at all. -/
def sliding_window (l : List Nat) : List (Nat × Nat × Nat × Nat) :=
  match l with
  | a :: b :: c :: d :: rest => sliding_go (a, b, c, d) rest
  | _ => []

/-- `quadgram_score` from the source, parameterized by the quad-gram
probability table `T` (built at startup from the corpus file, so treated as an
arbitrary lookup table here) and by the `fallback` constant
`log10(0.01 / TOTAL_QUAD_COUNT)` used for unseen quad-grams. -/
def quadgram_score (T : Nat × Nat × Nat × Nat → Option ℚ) (fallback : ℚ)
    (block : List Nat) : Option ℚ :=
  if ¬ (block.any fun b => valid_english_byte b) then none
  else if ¬ (block.any fun b => b == 32) then none
  else if ((letters_of block).length : ℚ) < (block.length : ℚ) * 0.5 then none
  else some (((sliding_window (letters_of block)).map fun q =>
    match T q with
    | some p => p
    | none => fallback).sum)

/-- Specification-side description of the width-4 windows: every contiguous
4-tuple of the list, one per starting index. -/
def windows4 (l : List Nat) : List (Nat × Nat × Nat × Nat) :=
  (List.range (l.length - 3)).map fun i =>
    (l.getD i 0, l.getD (i + 1) 0, l.getD (i + 2) 0, l.getD (i + 3) 0)

theorem sliding_go_eq_windows4 (rest : List Nat) :
    ∀ a b c d, sliding_go (a, b, c, d) rest = windows4 (a :: b :: c :: d :: rest) := by
  induction rest with
  | nil =>
      intro a b c d
      rfl
  | cons x xs ih =>
      intro a b c d
      rw [sliding_go]
      have ht : sliding_go (b, c, d, x) xs = windows4 (b :: c :: d :: x :: xs) := ih b c d x
      rw [ht, windows4, windows4]
      have h1 : (a :: b :: c :: d :: x :: xs).length - 3 = (b :: c :: d :: x :: xs).length - 3 + 1 := by
        simp
      rw [h1, List.range_succ_eq_map, List.map_cons, List.map_map]
      congr 1

theorem sliding_window_eq_windows4 (l : List Nat) :
    sliding_window l = windows4 l := by
  match l with
  | [] => rfl
  | [a] => rfl
  | [a, b] => rfl
  | [a, b, c] => rfl
  | a :: b :: c :: d :: rest => exact sliding_go_eq_windows4 rest a b c d

/-- The accepted-byte set named by the spec for the quad-gram variant:
{10, 13, 32–127}. (The code's `VALID_ASCII_BYTES` actually excludes 13.) -/
def quad_accepted_claim (b : Nat) : Prop := b = 10 ∨ b = 13 ∨ (32 ≤ b ∧ b ≤ 127)

/-- Counterexample to C2: the block `[0, 32, 97, 98]` contains the byte 0,
which is outside every accepted set, yet `quadgram_score` does not return
`None` on it: the gate only rejects a block in which NO byte is accepted. (The
score here is 0 because only 2 letters remain, so no window is formed and the
table is never consulted.) -/
theorem quadgram_score_invalid_byte_counterexample :
    ¬ quad_accepted_claim 0 ∧ (0 : Nat) ∈ ([0, 32, 97, 98] : List Nat) ∧
      quadgram_score (fun _ => none) 0 [0, 32, 97, 98] = some 0 := by
  refine ⟨by simp [quad_accepted_claim], by simp, ?_⟩
  have hl : letters_of [0, 32, 97, 98] = [97, 98] := by decide
  rw [quadgram_score, if_neg (by decide), if_neg (by decide), if_neg ?_]
  · rw [hl]
    rfl
  · rw [hl]
    norm_num

/-- C2 as amended: `quadgram_score` returns `None` whenever NO byte of the
block lies in the code's accepted set `VALID_ASCII_BYTES` = {10} ∪ {32–127}. -/
theorem quadgram_score_none_of_no_valid (T : Nat × Nat × Nat × Nat → Option ℚ)
    (fallback : ℚ) (block : List Nat)
    (h : ∀ b ∈ block, valid_english_byte b = false) :
    quadgram_score T fallback block = none := by
  rw [quadgram_score, if_pos]
  intro hany
  obtain ⟨b, hb, hv⟩ := List.any_eq_true.mp hany
  rw [h b hb] at hv
  cases hv

/-- Witness for the amended C2 at the all-invalid block `[0]`. -/
theorem quadgram_score_none_of_no_valid_witness :
    quadgram_score (fun _ => none) 0 [0] = none :=
  quadgram_score_none_of_no_valid (fun _ => none) 0 [0] (by decide)

/-- C8: once the three gates pass (some accepted byte, a space present,
letters at least 50% of the block), `quadgram_score` always returns a score:
the sum, over every width-4 sliding window of the letter-only lowercase
sequence, of the table's log-probability when present and of the fixed
fallback otherwise; with fewer than 4 letters there are no windows and the
score is exactly 0. -/
theorem quadgram_score_spec (T : Nat × Nat × Nat × Nat → Option ℚ)
    (fallback : ℚ) (block : List Nat)
    (h1 : (block.any fun b => valid_english_byte b) = true)
    (h2 : 32 ∈ block)
    (h3 : block.length ≤ 2 * (letters_of block).length) :
    quadgram_score T fallback block
      = some (((windows4 (letters_of block)).map fun q => (T q).getD fallback).sum) ∧
    ((letters_of block).length < 4 → quadgram_score T fallback block = some 0) := by
  have hmain : quadgram_score T fallback block
      = some (((windows4 (letters_of block)).map fun q => (T q).getD fallback).sum) := by
    rw [quadgram_score, if_neg (by simp [h1]), if_neg ?_, if_neg ?_]
    · rw [sliding_window_eq_windows4]
      refine congrArg some (congrArg List.sum (List.map_congr_left fun q _ => ?_))
      cases T q <;> rfl
    · push_neg
      have hcast : ((block.length : ℚ)) ≤ 2 * ((letters_of block).length : ℚ) := by
        exact_mod_cast h3
      nlinarith
    · intro hno
      exact hno (List.any_eq_true.mpr ⟨32, h2, by simp⟩)
  refine ⟨hmain, fun hlt => ?_⟩
  rw [hmain]
  have h0 : (letters_of block).length - 3 = 0 := by omega
  rw [windows4, h0]
  rfl

/-- Witness for C8 at the block "a bcde" with an empty table and fallback 1. -/
theorem quadgram_score_spec_witness :
    quadgram_score (fun _ => none) 1 [97, 32, 98, 99, 100, 101]
      = some (((windows4 (letters_of [97, 32, 98, 99, 100, 101])).map fun q =>
          ((fun _ => (none : Option ℚ)) q).getD 1).sum) :=
  (quadgram_score_spec (fun _ => none) 1 [97, 32, 98, 99, 100, 101]
    (by decide) (by decide) (by decide)).1

/- ### Stability of sorting by score -/

theorem pair_sublist_of_mem {α : Type} {l : List α} {a b : α}
    (ha : a ∈ l) (hb : b ∈ l) (hne : a ≠ b) :
    List.Sublist [a, b] l ∨ List.Sublist [b, a] l := by
  induction l with
  | nil => cases ha
  | cons x t ih =>
      rcases List.mem_cons.mp ha with rfl | ha'
      · have hb' : b ∈ t := by
          rcases List.mem_cons.mp hb with rfl | h
          · exact absurd rfl hne
          · exact h
        exact Or.inl ((List.singleton_sublist.mpr hb').cons₂ a)
      · rcases List.mem_cons.mp hb with rfl | hb'
        · exact Or.inr ((List.singleton_sublist.mpr ha').cons₂ b)
        · rcases ih ha' hb' with h | h
          · exact Or.inl (h.cons x)
          · exact Or.inr (h.cons x)

theorem eq_of_pair_sublists {α : Type} {l : List α} {a b : α} (hnd : l.Nodup)
    (h1 : List.Sublist [a, b] l) (h2 : List.Sublist [b, a] l) : a = b := by
  induction l with
  | nil => exact absurd (h1.subset (by simp)) (List.not_mem_nil a)
  | cons x t ih =>
      obtain ⟨hx, hnd'⟩ := List.nodup_cons.mp hnd
      cases h1 with
      | cons _ h1' =>
          cases h2 with
          | cons _ h2' => exact ih hnd' h1' h2'
          | cons₂ _ h2' => exact absurd (h1'.subset (by simp)) hx
      | cons₂ _ h1' =>
          cases h2 with
          | cons _ h2' => exact absurd (h2'.subset (by simp)) hx
          | cons₂ _ h2' => rfl

/-- Sorting with a stable merge sort by a rational key, starting from a list
whose `idx` values strictly increase, yields a list pairwise ordered by the
lexicographic order (key, idx): equal keys stay in their original order. This
is exactly the guarantee of Python's stable `list.sort(key=...)`. -/
theorem mergeSort_stable_lex {α : Type} (key : α → ℚ) (idx : α → Nat) (l : List α)
    (hl : l.Pairwise fun a b => idx a < idx b) :
    (l.mergeSort fun a b => decide (key a ≤ key b)).Pairwise
      fun a b => key a < key b ∨ (key a = key b ∧ idx a < idx b) := by
  have htrans : ∀ (a b c : α), (decide (key a ≤ key b)) = true →
      (decide (key b ≤ key c)) = true → (decide (key a ≤ key c)) = true := by
    intro a b c hab hbc
    simp only [decide_eq_true_eq] at *
    exact le_trans hab hbc
  have htotal : ∀ (a b : α), ((decide (key a ≤ key b)) || (decide (key b ≤ key a))) = true := by
    intro a b
    simpa using le_total (key a) (key b)
  have hnd : l.Nodup :=
    hl.imp fun h => fun hab => absurd (hab ▸ h) (lt_irrefl _)
  have hout : (l.mergeSort fun a b => decide (key a ≤ key b)).Nodup :=
    (List.mergeSort_perm l _).symm.nodup hnd
  have hsorted := List.sorted_mergeSort htrans htotal l
  rw [List.pairwise_iff_forall_sublist]
  intro a b hab
  have hkey : key a ≤ key b := by
    have := List.pairwise_iff_forall_sublist.mp hsorted hab
    simpa using this
  rcases lt_or_eq_of_le hkey with hlt | heq
  · exact Or.inl hlt
  · refine Or.inr ⟨heq, ?_⟩
    have hne : a ≠ b := List.pairwise_iff_forall_sublist.mp hout hab
    have hal : a ∈ l := (List.mergeSort_perm l _).subset (hab.subset (by simp))
    have hbl : b ∈ l := (List.mergeSort_perm l _).subset (hab.subset (by simp))
    rcases pair_sublist_of_mem hal hbl hne with hord | hord
    · exact List.pairwise_iff_forall_sublist.mp hl hord
    · have hba : List.Sublist [b, a] (l.mergeSort fun a b => decide (key a ≤ key b)) :=
        List.pair_sublist_mergeSort htrans htotal
          (by simp only [decide_eq_true_eq]; exact heq.symm.le) hord
      exact absurd (eq_of_pair_sublists hout hab hba) hne

/- ### Keysize estimation (break_repeating_key_xor, step 1) -/

/-- `chunks` from the source: the successive `n`-sized chunks `lst[i:i+n]` for
`i in range(0, len(lst), n)` (the last chunk may be shorter). `n` is positive
in every use of the source. -/
def chunks (lst : List Nat) (n : Nat) : List (List Nat) :=
  (List.range ((lst.length + n - 1) / n)).map fun i => (lst.drop (i * n)).take n

/-- Specification-side total bit distance between two buffers: the sum of the
set bits of the pointwise XOR. -/
def bitDistance (a b : List Nat) : Nat :=
  ((a.zip b).map fun p => popCount (p.1 ^^^ p.2)).sum

theorem hamming_eq_bitDistance (a b : List Nat) (h : a.length = b.length) :
    hamming a b = some (bitDistance a b) := by
  rw [bitDistance]
  exact (hamming_spec a b).2 h

/-- The keysize-estimation loop body of `break_repeating_key_xor`: the first
four keysize-chunks are taken, the three successive Hamming distances are each
divided by the keysize and then averaged; `none` models the exceptions raised
when fewer than four full chunks exist. -/
def normalized_dist (C : List Nat) (keysize : Nat) : Option ℚ :=
  match (chunks C keysize).take 4 with
  | [c0, c1, c2, c3] =>
      match hamming c0 c1, hamming c1 c2, hamming c2 c3 with
      | some d1, some d2, some d3 =>
          some (((d1 : ℚ) / keysize + (d2 : ℚ) / keysize + (d3 : ℚ) / keysize) / 3)
      | _, _, _ => none
  | _ => none

/-- Keysize estimation from the source: for each keysize in 2..40 the pair
(keysize, normalized distance) is collected, then the list is sorted stably by
the normalized distance. -/
def probable_keys (C : List Nat) : Option (List (Nat × ℚ)) :=
  ((List.range' 2 39).mapM fun s => (normalized_dist C s).map fun q => (s, q)).map
    fun pairs : List (Nat × ℚ) => pairs.mergeSort fun a b => decide (a.2 ≤ b.2)

/-- Specification-side normalized distance of keysize `s`: the average of the
three successive pairwise bit distances of the first four `s`-byte chunks,
each divided by `s`. -/
def keysize_dist (C : List Nat) (s : Nat) : ℚ :=
  ((bitDistance (C.take s) ((C.drop s).take s) : ℚ) / s
    + (bitDistance ((C.drop s).take s) ((C.drop (2 * s)).take s) : ℚ) / s
    + (bitDistance ((C.drop (2 * s)).take s) ((C.drop (3 * s)).take s) : ℚ) / s) / 3

theorem normalized_dist_eq (C : List Nat) (s : Nat) (hs : 0 < s) (hlen : 4 * s ≤ C.length) :
    normalized_dist C s = some (keysize_dist C s) := by
  have htake : (chunks C s).take 4 =
      [C.take s, (C.drop s).take s, (C.drop (2 * s)).take s, (C.drop (3 * s)).take s] := by
    rw [chunks, ← List.map_take, List.take_range]
    have hm : 4 ≤ (C.length + s - 1) / s := (Nat.le_div_iff_mul_le hs).mpr (by omega)
    have hmin : min 4 ((C.length + s - 1) / s) = 4 := by omega
    rw [hmin, show List.range 4 = [0, 1, 2, 3] from rfl]
    simp only [List.map_cons, List.map_nil, Nat.zero_mul, Nat.one_mul, List.drop_zero]
  have l0 : (C.take s).length = s := by simp; omega
  have l1 : ((C.drop s).take s).length = s := by simp; omega
  have l2 : ((C.drop (2 * s)).take s).length = s := by simp; omega
  have l3 : ((C.drop (3 * s)).take s).length = s := by simp; omega
  have e1 := hamming_eq_bitDistance _ _ (l0.trans l1.symm)
  have e2 := hamming_eq_bitDistance _ _ (l1.trans l2.symm)
  have e3 := hamming_eq_bitDistance _ _ (l2.trans l3.symm)
  rw [normalized_dist, htake]
  simp only [e1, e2, e3, keysize_dist]

theorem mapM_option_eq_map {α β : Type} (l : List α) (g : α → Option β) (f : α → β)
    (h : ∀ x ∈ l, g x = some (f x)) : l.mapM g = some (l.map f) := by
  induction l with
  | nil => rfl
  | cons x t ih =>
      rw [List.mapM_cons, h x (by simp), ih (fun y hy => h y (by simp [hy]))]
      rfl

theorem probable_keys_eq (C : List Nat) (hlen : 160 ≤ C.length) :
    probable_keys C = some (((List.range' 2 39).map fun s => (s, keysize_dist C s)).mergeSort
      fun a b => decide (a.2 ≤ b.2)) := by
  rw [probable_keys,
    mapM_option_eq_map (List.range' 2 39) _ (fun s => (s, keysize_dist C s)) ?_]
  · rfl
  · intro s hsmem
    obtain ⟨i, hi, rfl⟩ := List.mem_range'.mp hsmem
    rw [normalized_dist_eq C _ (by omega) (by omega)]
    rfl

/-- C3: when the ciphertext has at least 4·40 bytes, keysize estimation
produces exactly the pairs (s, average of the three chunk Hamming distances
divided by s) for s in 2..40, ranked ascending by normalized distance with
ties kept in ascending keysize order. -/
theorem keysize_ranking_spec (C : List Nat) (hlen : 160 ≤ C.length) :
    ∃ ranked, probable_keys C = some ranked ∧
      ranked.Perm ((List.range' 2 39).map fun s => (s, keysize_dist C s)) ∧
      ranked.Pairwise fun a b => a.2 < b.2 ∨ (a.2 = b.2 ∧ a.1 < b.1) := by
  refine ⟨_, probable_keys_eq C hlen, List.mergeSort_perm _ _, ?_⟩
  have hpw : ((List.range' 2 39).map fun s => (s, keysize_dist C s)).Pairwise
      fun a b => a.1 < b.1 := by
    rw [List.pairwise_map]
    exact (show List.Pairwise (· < ·) (List.range' 2 39) from by decide)
  exact mergeSort_stable_lex (fun p : Nat × ℚ => p.2) (fun p : Nat × ℚ => p.1) _ hpw

/-- Witness for C3 at a 160-byte all-zero ciphertext. -/
theorem keysize_ranking_spec_witness :
    ∃ ranked, probable_keys (List.replicate 160 0) = some ranked ∧
      ranked.Perm ((List.range' 2 39).map fun s => (s, keysize_dist (List.replicate 160 0) s)) ∧
      ranked.Pairwise fun a b => a.2 < b.2 ∨ (a.2 = b.2 ∧ a.1 < b.1) :=
  keysize_ranking_spec (List.replicate 160 0) (by simp)

/- ### The single-byte XOR breaker -/

theorem fixed_xor_replicate (block : List Nat) (c : Nat) :
    fixed_xor block (List.replicate block.length c) = some (block.map fun b => b ^^^ c) := by
  rw [fixed_xor, if_neg (by simp)]
  refine congrArg some (List.ext_getElem (by simp) ?_)
  intro i h1 h2
  have hi : i < block.length := by simpa using h1
  simp only [List.getElem_map, List.getElem_range]
  rw [List.getD_eq_getElem _ _ hi, List.getD_eq_getElem _ _ (by simpa using hi)]
  simp

/-- The loop body of `break_single_byte_xor` for one key byte `c`: XOR the
block with `c` repeated, score with `chi2_score`, and keep the triple
`(c, score, xored)` only when the score is truthy (Python `if score:` skips
both `None` and `0.0`). -/
def candidate_at (block : List Nat) (c : Nat) : Option (Nat × ℚ × List Nat) :=
  match fixed_xor block (List.replicate block.length c) with
  | none => none
  | some xored =>
      match chi2_score xored with
      | none => none
      | some score => if score = 0 then none else some (c, score, xored)

/-- The `scores` list built by `break_single_byte_xor`, in key order 0..255. -/
def candidates (block : List Nat) : List (Nat × ℚ × List Nat) :=
  (List.range 256).filterMap (candidate_at block)

/-- `break_single_byte_xor` from the source: the candidates are sorted stably
by score and the pair (score, key byte) of the first one is returned; `none`
when no candidate scored. -/
def break_single_byte_xor (block : List Nat) : Option (ℚ × Nat) :=
  match (candidates block).mergeSort fun a b => decide (a.2.1 ≤ b.2.1) with
  | [] => none
  | best :: _ => some (best.2.1, best.1)

theorem candidate_at_eq_some_iff (block : List Nat) (c : Nat) (t : Nat × ℚ × List Nat) :
    candidate_at block c = some t ↔
      chi2_score (block.map fun b => b ^^^ c) = some t.2.1 ∧
      t.1 = c ∧ t.2.2 = block.map fun b => b ^^^ c := by
  rcases hsc : chi2_score (block.map fun b => b ^^^ c) with _ | sc
  · have hred : candidate_at block c = none := by
      rw [candidate_at, fixed_xor_replicate]
      simp [hsc]
    rw [hred]
    simp
  · have hpos := chi2_score_pos _ _ hsc
    have hred : candidate_at block c = some (c, sc, block.map fun b => b ^^^ c) := by
      rw [candidate_at, fixed_xor_replicate]
      simp [hsc, ne_of_gt hpos]
    rw [hred]
    constructor
    · intro h
      obtain rfl := Option.some_inj.mp h
      exact ⟨rfl, rfl, rfl⟩
    · rintro ⟨h1, h2, h3⟩
      obtain ⟨tc, ts, tx⟩ := t
      simp only at h1 h2 h3
      obtain rfl := Option.some_inj.mp h1
      rw [h2, h3]

theorem candidate_at_eq_none_iff (block : List Nat) (c : Nat) :
    candidate_at block c = none ↔ chi2_score (block.map fun b => b ^^^ c) = none := by
  rcases hsc : chi2_score (block.map fun b => b ^^^ c) with _ | sc
  · rw [candidate_at, fixed_xor_replicate]
    simp [hsc]
  · have hpos := chi2_score_pos _ _ hsc
    rw [candidate_at, fixed_xor_replicate]
    simp [hsc, ne_of_gt hpos]

theorem mem_candidates_iff (block : List Nat) (t : Nat × ℚ × List Nat) :
    t ∈ candidates block ↔
      t.1 < 256 ∧ chi2_score (block.map fun b => b ^^^ t.1) = some t.2.1 ∧
        t.2.2 = block.map fun b => b ^^^ t.1 := by
  rw [candidates, List.mem_filterMap]
  constructor
  · rintro ⟨c, hc, hca⟩
    obtain ⟨h1, h2, h3⟩ := (candidate_at_eq_some_iff block c t).mp hca
    subst h2
    exact ⟨List.mem_range.mp hc, h1, h3⟩
  · rintro ⟨hc, h1, h3⟩
    exact ⟨t.1, List.mem_range.mpr hc,
      (candidate_at_eq_some_iff block t.1 t).mpr ⟨h1, rfl, h3⟩⟩

theorem candidates_pairwise (block : List Nat) :
    (candidates block).Pairwise fun a b => a.1 < b.1 := by
  rw [candidates, List.pairwise_filterMap]
  refine List.Pairwise.imp ?_ (List.pairwise_lt_range 256)
  intro c c' hlt t ht t' ht'
  have h1 := ((candidate_at_eq_some_iff block c t).mp (Option.mem_def.mp ht)).2.1
  have h2 := ((candidate_at_eq_some_iff block c' t').mp (Option.mem_def.mp ht')).2.1
  rw [h1, h2]
  exact hlt

/-- C1: `break_single_byte_xor` returns `None` exactly when no key byte in
0..255 produces a non-`None` chi-squared score, and otherwise returns the
(score, key) pair with the minimum score, ties broken by the smallest key.
(`chi2_score_pos` shows scores are never 0, so Python's truthiness filter
keeps exactly the non-`None` candidates.) -/
theorem break_single_byte_xor_spec (block : List Nat) :
    (break_single_byte_xor block = none ↔
      ∀ c, c < 256 → chi2_score (block.map fun b => b ^^^ c) = none) ∧
    (∀ s k, break_single_byte_xor block = some (s, k) →
      k < 256 ∧ chi2_score (block.map fun b => b ^^^ k) = some s ∧
      (∀ c s', c < 256 → chi2_score (block.map fun b => b ^^^ c) = some s' → s ≤ s') ∧
      (∀ c, c < 256 → chi2_score (block.map fun b => b ^^^ c) = some s → k ≤ c)) := by
  have hlex : ((candidates block).mergeSort fun a b => decide (a.2.1 ≤ b.2.1)).Pairwise
      (fun a b => a.2.1 < b.2.1 ∨ (a.2.1 = b.2.1 ∧ a.1 < b.1)) :=
    mergeSort_stable_lex (fun t : Nat × ℚ × List Nat => t.2.1)
      (fun t : Nat × ℚ × List Nat => t.1) (candidates block) (candidates_pairwise block)
  have hperm : ((candidates block).mergeSort fun a b => decide (a.2.1 ≤ b.2.1)).Perm
      (candidates block) := List.mergeSort_perm (candidates block) _
  rcases hout : (candidates block).mergeSort fun a b => decide (a.2.1 ≤ b.2.1) with _ | ⟨best, rest⟩
  · have hempty : candidates block = [] := by
      rw [hout] at hperm
      exact (hperm.symm).eq_nil
    constructor
    · constructor
      · intro _ c hc
        rcases hchi : chi2_score (block.map fun b => b ^^^ c) with _ | sc
        · rfl
        · have ht : (c, sc, block.map fun b => b ^^^ c) ∈ candidates block :=
            (mem_candidates_iff _ _).mpr ⟨hc, by simpa using hchi, rfl⟩
          rw [hempty] at ht
          exact absurd ht (List.not_mem_nil _)
      · intro _
        rw [break_single_byte_xor, hout]
    · intro s k hsk
      rw [break_single_byte_xor, hout] at hsk
      cases hsk
  · rw [hout] at hperm hlex
    have hbest_mem : best ∈ candidates block := hperm.subset (by simp)
    obtain ⟨hbk, hbchi, hbx⟩ := (mem_candidates_iff _ _).mp hbest_mem
    constructor
    · constructor
      · intro habs
        rw [break_single_byte_xor, hout] at habs
        cases habs
      · intro hall
        exfalso
        have hn := hall best.1 hbk
        rw [hn] at hbchi
        cases hbchi
    · intro s k hsk
      rw [break_single_byte_xor, hout] at hsk
      have hpair := Option.some_inj.mp hsk
      obtain ⟨hs, hk⟩ : best.2.1 = s ∧ best.1 = k :=
        ⟨congrArg Prod.fst hpair, congrArg Prod.snd hpair⟩
      subst hs
      subst hk
      refine ⟨hbk, hbchi, ?_, ?_⟩
      · intro c s' hc hchi
        have hmem : (c, s', block.map fun b => b ^^^ c) ∈ candidates block :=
          (mem_candidates_iff _ _).mpr ⟨hc, by simpa using hchi, rfl⟩
        rcases List.mem_cons.mp (hperm.symm.subset hmem) with heq | hmem'
        · rw [← heq]
        · rcases (List.pairwise_cons.mp hlex).1 _ hmem' with h | h
          · exact le_of_lt h
          · exact le_of_eq h.1
      · intro c hc hchi
        have hmem : (c, best.2.1, block.map fun b => b ^^^ c) ∈ candidates block :=
          (mem_candidates_iff _ _).mpr ⟨hc, by simpa using hchi, rfl⟩
        rcases List.mem_cons.mp (hperm.symm.subset hmem) with heq | hmem'
        · rw [← heq]
        · rcases (List.pairwise_cons.mp hlex).1 _ hmem' with h | h
          · exact absurd h (lt_irrefl _)
          · exact le_of_lt h.2

set_option maxRecDepth 4000 in
/-- Witness for C1 at the empty block: no key byte scores, so the breaker
returns `None`. -/
theorem break_single_byte_xor_spec_witness :
    break_single_byte_xor [] = none :=
  (break_single_byte_xor_spec []).1.mpr (by decide)

end CryptoPals
